import Mathlib

/- A shallow embedding of the S3 storage client
   (storages/cloudstorage/s3/client.py).

   Strings are lists of characters, file contents are lists of byte values,
   the local path separator is modelled as '/' (POSIX), and the remote store
   is modelled by an association list of keys to contents, served through the
   paginated listing interface that list_objects_v2 provides. -/

abbrev Str := List Char
abbrev Content := List Nat
abbrev FPath := List Str
abbrev Bucket := List (Str × Content)

/- ---------- string helpers: rstrip('/'), lstrip('/') ---------- -/

def rstripSlash (s : Str) : Str := (s.reverse.dropWhile (fun c => c = '/')).reverse

def lstripSlash (s : Str) : Str := s.dropWhile (fun c => c = '/')

def trailingSlashes (s : Str) : Nat := (s.reverse.takeWhile (fun c => c = '/')).length

/- ---------- local paths ---------- -/

def sepChar : Char := '/'

def joinSep : FPath → Str
  | [] => []
  | [n] => n
  | n :: rest => n ++ sepChar :: joinSep rest

def sepToSlash (s : Str) : Str := s.map (fun c => if c = sepChar then '/' else c)

def joinPath : FPath → Str
  | [] => []
  | [n] => n
  | n :: rest => n ++ '/' :: joinPath rest

abbrev validName (n : Str) : Prop := n ≠ [] ∧ '/' ∉ n

abbrev validPath (r : FPath) : Prop := r ≠ [] ∧ ∀ n ∈ r, validName n

/-- A local directory tree, represented by the ordered list of its regular
files as the recursive walk (os.walk) discovers them: each file carries its
path components relative to the walk root together with its bytes. -/
abbrev LocalTree := List (FPath × Content)

/-- Paths of the walked files as os.walk yields them: absolute, i.e. the
walk root prepended to each file's relative components. -/
def absWalk (base : FPath) (T : LocalTree) : List (FPath × Content) :=
  T.map (fun pc => (base ++ pc.1, pc.2))

/-- os.path.relpath(p, base) for p lying under base. -/
def relPath (base : FPath) (p : FPath) : FPath := p.drop base.length

/-- remote_path computed by upload_folder:
remote_prefix.rstrip('/') + '/' + rel_path.replace(os.sep, '/'). -/
def destKey (pfx : Str) (r : FPath) : Str :=
  rstripSlash pfx ++ '/' :: sepToSlash (joinSep r)

/-- files_to_upload built by upload_folder's walk. -/
def fileManifest (base : FPath) (T : LocalTree) (pfx : Str) : List (Str × Content) :=
  (absWalk base T).map (fun pc => (destKey pfx (relPath base pc.1), pc.2))

/- ---------- the remote store ---------- -/

def putObject (b : Bucket) (k : Str) (v : Content) : Bucket :=
  if k ∈ b.map Prod.fst then
    b.map (fun e => if e.1 = k then (k, v) else e)
  else b ++ [(k, v)]

def getObject (b : Bucket) (k : Str) : Option Content :=
  (b.find? (fun e => decide (e.1 = k))).map (fun e => e.2)

def runPuts (b : Bucket) (items : List (Str × Content)) : Bucket :=
  items.foldl (fun acc kv => putObject acc kv.1 kv.2) b

/-- Keys the service holds under a given key prefix, in storage order. -/
def bucketKeys (b : Bucket) (pfx : Str) : List Str :=
  (b.filter (fun e => pfx.isPrefixOf e.1)).map Prod.fst

/- ---------- S3Client.list : paginated listing ---------- -/

/-- One list_objects_v2 response. -/
structure ListPage where
  contents : List Str
  isTruncated : Bool
  nextToken : Option Nat

/-- The while-loop of S3Client.list.  A provider is the function behind
list_objects_v2: it receives the continuation token and the MaxKeys
parameter (when the caller sets them) and answers with a page.  The fuel
argument bounds the number of loop iterations; none signals exhaustion. -/
def listLoop (prov : Option Nat → Option Nat → ListPage) (maxKeys : Option Nat) :
    Nat → List Str → Option Nat → Option (List Str)
  | 0, _, _ => none
  | Nat.succ fuel, keys, tok =>
    match maxKeys with
    | some mk =>
      if keys.length < mk then
        let resp := prov tok (some (min (mk - keys.length) 1000))
        let keys2 := keys ++ resp.contents
        if resp.isTruncated then listLoop prov maxKeys fuel keys2 resp.nextToken
        else some keys2
      else some keys
    | none =>
      let resp := prov tok none
      let keys2 := keys ++ resp.contents
      if resp.isTruncated then listLoop prov maxKeys fuel keys2 resp.nextToken
      else some keys2

def s3list (prov : Option Nat → Option Nat → ListPage) (maxKeys : Option Nat)
    (fuel : Nat) : Option (List Str) :=
  listLoop prov maxKeys fuel [] none

/-- A well-behaved provider over a fixed key sequence: it serves keys in
order from the continuation offset, never returns more than the requested
MaxKeys nor more than its own page cap, and reports truncation exactly when
keys remain. -/
def honestProv (allKeys : List Str) (cap : Nat) :
    Option Nat → Option Nat → ListPage :=
  fun tok mk =>
    let start := tok.getD 0
    let lim := min (mk.getD cap) cap
    let served := (allKeys.drop start).take lim
    ⟨served, decide (start + served.length < allKeys.length),
      some (start + served.length)⟩

/-- The S3 service listing a bucket under a prefix: an honest provider over
the matching keys with the service page cap of 1000. -/
def s3backend (b : Bucket) (pfx : Str) : Option Nat → Option Nat → ListPage :=
  honestProv (bucketKeys b pfx) 1000

/- ---------- single-object operations ---------- -/

/-- Network calls a client method issues. -/
inductive Call where
  | put : Str → Call

inductive FileErr where
  | fileNotFound

/-- S3Client.upload: the eager os.path.exists check, then upload_file.
Returns the provider calls issued together with the outcome. -/
def uploadModel (b : Bucket) (fsExists : Bool) (rp : Str) (c : Content) :
    List Call × Except FileErr Bucket :=
  if fsExists then ([Call.put rp], .ok (putObject b rp c))
  else ([], .error .fileNotFound)

inductive DelErr where
  | ioErr : Str → DelErr

/-- S3Client.delete: outcome is the provider's delete_object result
(ok, or a ClientError code). -/
def deleteModel (outcome : Except Str Unit) (ignoreMissing : Bool) :
    Except DelErr Unit :=
  match outcome with
  | .ok _ => .ok ()
  | .error code => if ignoreMissing then .ok () else .error (.ioErr code)

/- ---------- folder transfer ---------- -/

/-- Progress-callback invocations: one (completed, total) pair per completed
item, the counter starting at the given value. -/
def progressGo (total : Nat) : Nat → List α → List (Nat × Nat)
  | _, [] => []
  | done, _ :: rest => (done + 1, total) :: progressGo total (done + 1) rest

inductive FolderErr where
  | notADir

/-- S3Client.upload_folder.  isDir is the os.path.isdir check; T is the
walked tree under base; uord is the completion order the thread pool
produces in parallel mode (sequential mode processes the manifest in
order).  Returns the put calls issued and, on success, the resulting
bucket with the progress-callback trace. -/
def uploadFolderModel (b : Bucket) (isDir : Bool) (base : FPath) (T : LocalTree)
    (pfx : Str) (par : Bool) (uord : List (Str × Content)) :
    List Call × Except FolderErr (Bucket × List (Nat × Nat)) :=
  if isDir then
    let man := fileManifest base T pfx
    let total := man.length
    if total = 0 then ([], .ok (b, []))
    else
      let items := if par ∧ 1 < total then uord else man
      (items.map (fun kv => Call.put kv.1),
        .ok (runPuts b items, progressGo total 0 items))
  else ([], .error .notADir)

def mapMOpt (f : α → Option β) : List α → Option (List β)
  | [] => some []
  | x :: xs =>
    match f x with
    | none => none
    | some y =>
      match mapMOpt f xs with
      | none => none
      | some ys => some (y :: ys)

/-- One item of download_folder: rel_path = key[len(remote_prefix):]
stripped of leading '/', content fetched from the store. -/
def dlItem (b : Bucket) (pfx : Str) (k : Str) : Option (Str × Content) :=
  (getObject b k).map (fun c => (lstripSlash (k.drop pfx.length), c))

/-- S3Client.download_folder.  Lists the prefix, creates the destination
directory when the listing is empty, otherwise transfers every key (dord is
the parallel completion order).  Returns (destination directory created
directly, files written as relative-path/bytes pairs, progress trace). -/
def downloadFolderModel (b : Bucket) (pfx : Str) (fuel : Nat) (par : Bool)
    (dord : List Str) : Option (Bool × List (Str × Content) × List (Nat × Nat)) :=
  match s3list (s3backend b pfx) none fuel with
  | none => none
  | some ks =>
    if ks.isEmpty then some (true, [], [])
    else
      let total := ks.length
      let order := if par ∧ 1 < total then dord else ks
      (mapMOpt (dlItem b pfx) order).map
        (fun fs => (false, fs, progressGo total 0 order))

/- ---------- S3Client.delete_folder ---------- -/

/-- keys[i:i+1000] slices of the listed keys, in order; the first argument
is recursion fuel (the key count suffices). -/
def chunkGo : Nat → List Str → List (List Str)
  | 0, _ => []
  | _ + 1, [] => []
  | f + 1, k :: ks => ((k :: ks).take 1000) :: chunkGo f ((k :: ks).drop 1000)

def chunk1000 (ks : List Str) : List (List Str) := chunkGo ks.length ks

def chunkSizesGo : Nat → Nat → List Nat
  | 0, _ => []
  | _ + 1, 0 => []
  | f + 1, m + 1 => min (m + 1) 1000 :: chunkSizesGo f (m + 1 - 1000)

/-- Sizes of the consecutive 1000-chunks of a list of the given length. -/
def chunkSizes (n : Nat) : List Nat := chunkSizesGo n n

def catLists : List (List Str) → List Str
  | [] => []
  | c :: cs => c ++ catLists cs

/-- Effect of one delete_objects batch on the store. -/
def removeKeys (b : Bucket) (ks : List Str) : Bucket :=
  b.filter (fun e => decide (e.1 ∉ ks))

/-- The batch loop of delete_folder: issues one delete_objects call per
chunk; fails abort the loop (the IOError raise).  fails tells which call
index the provider rejects.  Returns the issued calls, the resulting
store, and the outcome (deleted count on success). -/
def deleteChunksSt (fails : Nat → Bool) :
    Bucket → List (List Str) → Nat → Nat →
      List (List Str) × Bucket × Except Unit Nat
  | b, [], _, acc => ([], b, .ok acc)
  | b, c :: cs, idx, acc =>
    if fails idx then ([c], b, .error ())
    else
      let r := deleteChunksSt fails (removeKeys b c) cs (idx + 1) (acc + c.length)
      (c :: r.1, r.2)

def noFail : Nat → Bool := fun _ => false

/-- S3Client.delete_folder: uncapped listing, early return 0 on an empty
listing, otherwise the chunked batch deletion. -/
def deleteFolderModel (b : Bucket) (pfx : Str) (fuel : Nat) (fails : Nat → Bool) :
    Option (List (List Str) × Bucket × Except Unit Nat) :=
  match s3list (s3backend b pfx) none fuel with
  | none => none
  | some ks =>
    if ks.isEmpty then some ([], b, .ok 0)
    else some (deleteChunksSt fails b (chunk1000 ks) 0 0)

/- ---------- S3Client.__init__ ---------- -/

inductive ProbeOutcome where
  | ok
  | noCredentials
  | clientError : Str → ProbeOutcome

inductive InitErr where
  | valueErr
  | rawClientErr : Str → InitErr
deriving DecidableEq

structure ClientModel where
  bucket : Str
  maxWorkers : Nat

def code404 : Str := ['4', '0', '4']

/-- S3Client.__init__: the head_bucket reachability probe; NoCredentialsError
and a 404 ClientError become ValueError, any other ClientError is re-raised
unchanged. -/
def initClient (bu : Str) (mw : Nat) (probe : ProbeOutcome) :
    Except InitErr ClientModel :=
  match probe with
  | .ok => .ok ⟨bu, mw⟩
  | .noCredentials => .error .valueErr
  | .clientError code =>
    if code = code404 then .error .valueErr else .error (.rawClientErr code)

/- ---------- concrete instances used by scenarios ---------- -/

/-- A misbehaving provider that ignores the MaxKeys bound: every page holds
two keys and reports completion. -/
def overProv : Option Nat → Option Nat → ListPage :=
  fun _ _ => ⟨[['a'], ['b']], false, none⟩

def keys2500 : List Str := (List.range 2500).map (fun n => ['p', Char.ofNat n])

def b2500 : Bucket := keys2500.map (fun k => (k, []))

/- ================= helper lemmas: strings and paths ================= -/

theorem rstrip_decomp (s : Str) :
    s = rstripSlash s ++ List.replicate (trailingSlashes s) '/' := by
  have h1 : s.reverse.takeWhile (fun c => c = '/') ++
      s.reverse.dropWhile (fun c => c = '/') = s.reverse :=
    List.takeWhile_append_dropWhile _ _
  have h2 : s.reverse.takeWhile (fun c => c = '/') =
      List.replicate (trailingSlashes s) '/' := by
    apply List.eq_replicate_of_mem
    intro b hb
    have := List.mem_takeWhile_imp hb
    simpa using this
  calc s = s.reverse.reverse := (List.reverse_reverse s).symm
    _ = (s.reverse.takeWhile (fun c => c = '/') ++
          s.reverse.dropWhile (fun c => c = '/')).reverse := by rw [h1]
    _ = (s.reverse.dropWhile (fun c => c = '/')).reverse ++
          (s.reverse.takeWhile (fun c => c = '/')).reverse := by
        rw [List.reverse_append]
    _ = rstripSlash s ++ List.replicate (trailingSlashes s) '/' := by
        rw [rstripSlash, h2, List.reverse_replicate]

theorem pfx_shape (pfx : Str) (h : trailingSlashes pfx ≤ 1) :
    pfx = rstripSlash pfx ∨ pfx = rstripSlash pfx ++ ['/'] := by
  have hd := rstrip_decomp pfx
  interval_cases h' : trailingSlashes pfx
  · left; simpa using hd
  · right; simpa using hd

theorem sepToSlash_id (s : Str) : sepToSlash s = s := by
  induction s with
  | nil => rfl
  | cons c t ih =>
    simp only [sepToSlash, List.map_cons] at *
    rw [ih]
    by_cases h : c = sepChar
    · subst h; simp [sepChar]
    · simp [h]

theorem joinSep_eq_joinPath (r : FPath) : joinSep r = joinPath r := by
  induction r with
  | nil => rfl
  | cons n rest ih =>
    cases rest with
    | nil => rfl
    | cons m ms =>
      simp only [joinSep, joinPath, sepChar] at *
      rw [ih]

theorem destKey_eq (pfx : Str) (r : FPath) :
    destKey pfx r = rstripSlash pfx ++ '/' :: joinPath r := by
  rw [destKey, sepToSlash_id, joinSep_eq_joinPath]

theorem joinPath_head (r : FPath) (hv : validPath r) :
    ∃ c t, joinPath r = c :: t ∧ ¬ c = '/' := by
  obtain ⟨hne, hall⟩ := hv
  match r with
  | [] => exact absurd rfl hne
  | n :: rest =>
    have hn := hall n (by simp)
    obtain ⟨hnne, hslash⟩ := hn
    match n, hnne with
    | c :: cs, _ =>
      have hc : ¬ c = '/' := fun h => hslash (h ▸ List.mem_cons_self c cs)
      cases rest with
      | nil => exact ⟨c, cs, rfl, hc⟩
      | cons m ms => exact ⟨c, cs ++ '/' :: joinPath (m :: ms), by simp [joinPath], hc⟩

theorem lstrip_joinPath (r : FPath) (hv : validPath r) :
    lstripSlash (joinPath r) = joinPath r := by
  obtain ⟨c, t, heq, hc⟩ := joinPath_head r hv
  rw [heq, lstripSlash, List.dropWhile_cons]
  simp [hc]

theorem isPrefixOf_append_self (l t : Str) : l.isPrefixOf (l ++ t) = true := by
  rw [List.isPrefixOf_iff_prefix]
  exact List.prefix_append l t

theorem destKey_isPrefix (pfx : Str) (r : FPath) (h : trailingSlashes pfx ≤ 1) :
    pfx.isPrefixOf (destKey pfx r) = true := by
  rw [destKey_eq]
  rcases pfx_shape pfx h with hs | hs
  · rw [← hs]
    exact isPrefixOf_append_self pfx ('/' :: joinPath r)
  · rw [List.append_cons (rstripSlash pfx) '/' (joinPath r), ← hs]
    exact isPrefixOf_append_self pfx (joinPath r)

theorem destKey_drop (pfx : Str) (r : FPath) (h : trailingSlashes pfx ≤ 1)
    (hv : validPath r) :
    lstripSlash ((destKey pfx r).drop pfx.length) = joinPath r := by
  rw [destKey_eq]
  rcases pfx_shape pfx h with hs | hs
  · rw [← hs, List.drop_left]
    rw [lstripSlash, List.dropWhile_cons]
    simp only [decide_True, if_true, decide_eq_true_eq]
    exact lstrip_joinPath r hv
  · rw [List.append_cons (rstripSlash pfx) '/' (joinPath r), ← hs, List.drop_left]
    exact lstrip_joinPath r hv

theorem append_slash_inj (a b x y : Str) (ha : '/' ∉ a) (hb : '/' ∉ b)
    (h : a ++ '/' :: x = b ++ '/' :: y) : a = b ∧ x = y := by
  induction a generalizing b with
  | nil =>
    cases b with
    | nil => simpa using h
    | cons d ds =>
      simp only [List.nil_append, List.cons_append, List.cons.injEq] at h
      exact absurd (h.1 ▸ List.mem_cons_self d ds) hb
  | cons c cs ih =>
    cases b with
    | nil =>
      simp only [List.nil_append, List.cons_append, List.cons.injEq] at h
      exact absurd (h.1.symm ▸ List.mem_cons_self c cs) ha
    | cons d ds =>
      simp only [List.cons_append, List.cons.injEq] at h
      obtain ⟨hcd, hrest⟩ := h
      have ha' : '/' ∉ cs := fun hm => ha (List.mem_cons_of_mem c hm)
      have hb' : '/' ∉ ds := fun hm => hb (List.mem_cons_of_mem d hm)
      obtain ⟨he, hx⟩ := ih ds ha' hb' hrest
      exact ⟨by rw [hcd, he], hx⟩

theorem joinPath_inj (r s : FPath) (hr : validPath r) (hs : validPath s)
    (h : joinPath r = joinPath s) : r = s := by
  induction r generalizing s with
  | nil => exact absurd rfl hr.1
  | cons n rest ih =>
    obtain ⟨-, hrall⟩ := hr
    have hnv := hrall n (by simp)
    cases s with
    | nil => exact absurd rfl hs.1
    | cons m ms =>
      obtain ⟨-, hsall⟩ := hs
      have hmv := hsall m (by simp)
      cases rest with
      | nil =>
        cases ms with
        | nil => simpa [joinPath] using h
        | cons m2 ms2 =>
          exfalso
          simp only [joinPath] at h
          have : '/' ∈ (n : Str) := by
            rw [h]; exact List.mem_append_right m (List.mem_cons_self '/' _)
          exact hnv.2 this
      | cons n2 rest2 =>
        cases ms with
        | nil =>
          exfalso
          simp only [joinPath] at h
          have : '/' ∈ (m : Str) := by
            rw [← h]; exact List.mem_append_right n (List.mem_cons_self '/' _)
          exact hmv.2 this
        | cons m2 ms2 =>
          simp only [joinPath] at h
          obtain ⟨hnm, hrest⟩ := append_slash_inj n m _ _ hnv.2 hmv.2 h
          have hrv : validPath (n2 :: rest2) :=
            ⟨by simp, fun x hx => hrall x (List.mem_cons_of_mem n hx)⟩
          have hsv : validPath (m2 :: ms2) :=
            ⟨by simp, fun x hx => hsall x (List.mem_cons_of_mem m hx)⟩
          have := ih (m2 :: ms2) hrv hsv hrest
          rw [hnm, this]

theorem destKey_inj (pfx : Str) (r s : FPath) (hr : validPath r)
    (hs : validPath s) (h : destKey pfx r = destKey pfx s) : r = s := by
  rw [destKey_eq, destKey_eq] at h
  have h2 := (List.append_right_inj (rstripSlash pfx)).mp h
  exact joinPath_inj r s hr hs (by simpa using h2)

theorem fileManifest_eq (base : FPath) (T : LocalTree) (pfx : Str) :
    fileManifest base T pfx = T.map (fun pc => (destKey pfx pc.1, pc.2)) := by
  rw [fileManifest, absWalk, List.map_map]
  apply List.map_congr_left
  intro pc _
  simp [relPath, List.drop_left]

/- ================= helper lemmas: the store ================= -/

theorem runPuts_fresh : ∀ (items : List (Str × Content)) (b : Bucket),
    (∀ k ∈ items.map Prod.fst, k ∉ b.map Prod.fst) →
    (items.map Prod.fst).Nodup →
    runPuts b items = b ++ items := by
  intro items
  induction items with
  | nil => intro b _ _; simp [runPuts]
  | cons kv rest ih =>
    intro b hdisj hnd
    have hk : kv.1 ∉ b.map Prod.fst := hdisj kv.1 (by simp)
    have hstep : putObject b kv.1 kv.2 = b ++ [kv] := by
      rw [putObject, if_neg hk]
    have hrw : runPuts b (kv :: rest) = runPuts (b ++ [kv]) rest := by
      simp only [runPuts, List.foldl_cons, hstep]
    rw [hrw, ih (b ++ [kv])]
    · simp
    · intro k hkrest
      simp only [List.map_append, List.mem_append] at *
      rcases hnd with hnd
      push_neg
      constructor
      · exact hdisj k (by simp [hkrest])
      · intro hk1
        simp only [List.map_cons, List.nodup_cons] at hnd
        have : k = kv.1 := by simpa using hk1
        exact hnd.1 (this ▸ hkrest)
    · simpa using hnd.of_cons

theorem getObject_of_mem : ∀ (b : Bucket) (k : Str) (c : Content),
    (k, c) ∈ b → (b.map Prod.fst).Nodup → getObject b k = some c := by
  intro b
  induction b with
  | nil => intro k c hm; simp at hm
  | cons e es ih =>
    intro k c hm hnd
    simp only [List.map_cons, List.nodup_cons] at hnd
    by_cases he : e.1 = k
    · have : (k, c) = e := by
        rcases List.mem_cons.mp hm with h | h
        · exact h
        · exfalso
          exact hnd.1 (he ▸ List.mem_map_of_mem Prod.fst h)
      rw [getObject, List.find?_cons_of_pos _ (by simpa using he)]
      simp [← this]
    · have : (k, c) ∈ es := by
        rcases List.mem_cons.mp hm with h | h
        · exact absurd (by rw [← h]) he
        · exact h
      rw [getObject, List.find?_cons_of_neg _ (by simpa using he)]
      exact ih k c this hnd.2

theorem getObject_exists : ∀ (b : Bucket) (k : Str),
    k ∈ b.map Prod.fst → ∃ c, getObject b k = some c := by
  intro b
  induction b with
  | nil => intro k hm; simp at hm
  | cons e es ih =>
    intro k hm
    by_cases he : e.1 = k
    · exact ⟨e.2, by rw [getObject, List.find?_cons_of_pos _ (by simpa using he)]; rfl⟩
    · have : k ∈ es.map Prod.fst := by
        simp only [List.map_cons, List.mem_cons] at hm
        rcases hm with h | h
        · exact absurd h.symm he
        · exact h
      obtain ⟨c, hc⟩ := ih k this
      refine ⟨c, ?_⟩
      rw [getObject, List.find?_cons_of_neg _ (by simpa using he)]
      exact hc

theorem mapMOpt_eq_map (f : α → Option β) (g : α → β) :
    ∀ l : List α, (∀ x ∈ l, f x = some (g x)) → mapMOpt f l = some (l.map g) := by
  intro l
  induction l with
  | nil => intro _; rfl
  | cons x xs ih =>
    intro hall
    have hx := hall x (by simp)
    have hxs := ih (fun y hy => hall y (List.mem_cons_of_mem x hy))
    rw [mapMOpt, hx, hxs]
    rfl

theorem bucketKeys_all (b : Bucket) (pfx : Str)
    (h : ∀ e ∈ b, pfx.isPrefixOf e.1 = true) :
    bucketKeys b pfx = b.map Prod.fst := by
  rw [bucketKeys, List.filter_eq_self.mpr h]

theorem bucketKeys_sub (b : Bucket) (pfx : Str) (k : Str)
    (h : k ∈ bucketKeys b pfx) : k ∈ b.map Prod.fst := by
  rw [bucketKeys] at h
  obtain ⟨e, he, hk⟩ := List.mem_map.mp h
  exact hk ▸ List.mem_map_of_mem Prod.fst (List.mem_of_mem_filter he)

theorem progressGo_eq (total : Nat) :
    ∀ (l : List α) (d : Nat),
      progressGo total d l = (List.range l.length).map (fun i => (d + i + 1, total)) := by
  intro l
  induction l with
  | nil => intro d; rfl
  | cons x xs ih =>
    intro d
    rw [progressGo, ih (d + 1), List.length_cons, List.range_succ_eq_map]
    simp only [List.map_cons, List.map_map]
    refine List.cons_eq_cons.mpr ⟨by simp, ?_⟩
    apply List.map_congr_left
    intro i _
    simp only [Function.comp]
    refine Prod.ext ?_ rfl
    omega

/- ================= helper lemmas: the listing loop ================= -/

theorem listLoop_honest_none (K : List Str) (cap : Nat) (hcap : 1 ≤ cap) :
    ∀ (fuel s : Nat) (tok : Option Nat), tok.getD 0 = s → s ≤ K.length →
      K.length + 1 ≤ s + fuel →
      listLoop (honestProv K cap) none fuel (K.take s) tok = some K := by
  intro fuel
  induction fuel with
  | zero => intro s tok _ hs hf; omega
  | succ n ih =>
    intro s tok htok hs hf
    have hmle1 : min cap (K.length - s) ≤ cap := Nat.min_le_left _ _
    have hmle2 : min cap (K.length - s) ≤ K.length - s := Nat.min_le_right _ _
    have hcont : (honestProv K cap tok none).contents = (K.drop s).take cap := by
      simp [honestProv, htok]
    have htr : (honestProv K cap tok none).isTruncated
        = decide (s + min cap (K.length - s) < K.length) := by
      simp [honestProv, htok, List.length_take, List.length_drop]
    have hnx : (honestProv K cap tok none).nextToken
        = some (s + min cap (K.length - s)) := by
      simp [honestProv, htok, List.length_take, List.length_drop]
    have hkeys : K.take s ++ (K.drop s).take cap = K.take (s + cap) :=
      (List.take_add K s cap).symm
    simp only [listLoop, hcont, htr, hnx, hkeys]
    by_cases hlt : s + min cap (K.length - s) < K.length
    · rw [if_pos (decide_eq_true hlt)]
      have hmcap : min cap (K.length - s) = cap := by
        rcases Nat.le_total cap (K.length - s) with h | h
        · exact Nat.min_eq_left h
        · exfalso; rw [Nat.min_eq_right h] at hlt; omega
      rw [hmcap] at hlt ⊢
      exact ih (s + cap) (some (s + cap)) rfl (by omega) (by omega)
    · rw [if_neg (fun hc => hlt (of_decide_eq_true hc))]
      have h1 : K.length ≤ s + cap := by omega
      rw [List.take_of_length_le h1]

set_option maxHeartbeats 1000000 in
theorem listLoop_honest_some (K : List Str) (cap k : Nat) (hcap : 1 ≤ cap) :
    ∀ (fuel s : Nat) (tok : Option Nat), tok.getD 0 = s → s ≤ K.length → s ≤ k →
      min k K.length + 1 ≤ s + fuel →
      listLoop (honestProv K cap) (some k) fuel (K.take s) tok = some (K.take k) := by
  intro fuel
  induction fuel with
  | zero =>
    intro s tok _ hs hk hf
    have hsm := Nat.le_min.mpr ⟨hk, hs⟩
    omega
  | succ n ih =>
    intro s tok htok hs hk hf
    have hlen1 : (K.take s).length = s := by
      rw [List.length_take]; omega
    simp only [listLoop, hlen1]
    by_cases hsk : s < k
    · rw [if_pos hsk]
      have hlim1 : min (min (k - s) 1000) cap ≤ k - s :=
        le_trans (Nat.min_le_left _ _) (Nat.min_le_left _ _)
      have hlim0 : 1 ≤ min (min (k - s) 1000) cap :=
        Nat.le_min.mpr ⟨Nat.le_min.mpr ⟨by omega, by omega⟩, hcap⟩
      have hmle1 : min (min (k - s) 1000) cap ≥
          min (min (min (k - s) 1000) cap) (K.length - s) := Nat.min_le_left _ _
      have hmle2 : min (min (min (k - s) 1000) cap) (K.length - s) ≤ K.length - s :=
        Nat.min_le_right _ _
      have hcont : (honestProv K cap tok (some (min (k - s) 1000))).contents
          = (K.drop s).take (min (min (k - s) 1000) cap) := by
        simp [honestProv, htok]
      have htr : (honestProv K cap tok (some (min (k - s) 1000))).isTruncated
          = decide (s + min (min (min (k - s) 1000) cap) (K.length - s) < K.length) := by
        simp [honestProv, htok, List.length_take, List.length_drop]
      have hnx : (honestProv K cap tok (some (min (k - s) 1000))).nextToken
          = some (s + min (min (min (k - s) 1000) cap) (K.length - s)) := by
        simp [honestProv, htok, List.length_take, List.length_drop]
      have hkeys : K.take s ++ (K.drop s).take (min (min (k - s) 1000) cap)
          = K.take (s + min (min (k - s) 1000) cap) :=
        (List.take_add K s (min (min (k - s) 1000) cap)).symm
      simp only [hcont, htr, hnx, hkeys]
      by_cases hlt :
          s + min (min (min (k - s) 1000) cap) (K.length - s) < K.length
      · rw [if_pos (decide_eq_true hlt)]
        have hmeq : min (min (min (k - s) 1000) cap) (K.length - s)
            = min (min (k - s) 1000) cap := by
          rcases Nat.le_total (min (min (k - s) 1000) cap) (K.length - s) with h | h
          · exact Nat.min_eq_left h
          · exfalso; rw [Nat.min_eq_right h] at hlt; omega
        rw [hmeq] at hlt ⊢
        exact ih (s + min (min (k - s) 1000) cap)
          (some (s + min (min (k - s) 1000) cap)) rfl (by omega) (by omega) (by omega)
      · rw [if_neg (fun hc => hlt (of_decide_eq_true hc))]
        have h1 : K.length ≤ s + min (min (k - s) 1000) cap := by omega
        have h2 : K.length ≤ k := by omega
        rw [List.take_of_length_le h1, List.take_of_length_le h2]
    · rw [if_neg hsk]
      have : s = k := by omega
      rw [this]

theorem s3list_honest_none (K : List Str) (cap fuel : Nat) (hcap : 1 ≤ cap)
    (hf : K.length + 1 ≤ fuel) :
    s3list (honestProv K cap) none fuel = some K := by
  have h := listLoop_honest_none K cap hcap fuel 0 none rfl (Nat.zero_le _) (by omega)
  simpa [s3list] using h

theorem s3list_honest_some (K : List Str) (cap k fuel : Nat) (hcap : 1 ≤ cap)
    (hf : min k K.length + 1 ≤ fuel) :
    s3list (honestProv K cap) (some k) fuel = some (K.take k) := by
  have h := listLoop_honest_some K cap k hcap fuel 0 none rfl (Nat.zero_le _)
    (Nat.zero_le _) (by omega)
  simpa [s3list] using h

/- ================= helper lemmas: chunked deletion ================= -/

theorem chunkGo_cat : ∀ (f : Nat) (ks : List Str), ks.length ≤ f →
    catLists (chunkGo f ks) = ks := by
  intro f
  induction f with
  | zero =>
    intro ks hks
    have : ks = [] := List.length_eq_zero.mp (Nat.le_zero.mp hks)
    subst this; rfl
  | succ n ih =>
    intro ks hks
    cases ks with
    | nil => rfl
    | cons k t =>
      rw [chunkGo, catLists, ih ((k :: t).drop 1000)
        (by simp only [List.length_drop]; simp at hks ⊢; omega)]
      exact List.take_append_drop 1000 (k :: t)

theorem chunkGo_lengths : ∀ (f : Nat) (ks : List Str), ks.length ≤ f →
    (chunkGo f ks).map List.length = chunkSizesGo f ks.length := by
  intro f
  induction f with
  | zero =>
    intro ks hks
    have : ks = [] := List.length_eq_zero.mp (Nat.le_zero.mp hks)
    subst this; rfl
  | succ n ih =>
    intro ks hks
    cases ks with
    | nil => rfl
    | cons k t =>
      rw [chunkGo, List.map_cons, List.length_cons, chunkSizesGo,
        ih ((k :: t).drop 1000)
          (by simp only [List.length_drop]; simp at hks ⊢; omega)]
      simp only [List.length_take, List.length_drop, List.length_cons]
      rw [Nat.min_comm]

theorem chunkGo_bound : ∀ (f : Nat) (ks : List Str) (c : List Str),
    c ∈ chunkGo f ks → c.length ≤ 1000 := by
  intro f
  induction f with
  | zero => intro ks c hc; simp [chunkGo] at hc
  | succ n ih =>
    intro ks c hc
    cases ks with
    | nil => simp [chunkGo] at hc
    | cons k t =>
      rw [chunkGo] at hc
      rcases List.mem_cons.mp hc with h | h
      · rw [h, List.length_take]; omega
      · exact ih _ c h

theorem catLists_length : ∀ (L : List (List Str)),
    (catLists L).length = (L.map List.length).sum := by
  intro L
  induction L with
  | nil => rfl
  | cons c cs ih => simp [catLists, ih]

theorem deleteChunks_noFail : ∀ (cs : List (List Str)) (b : Bucket) (idx acc : Nat),
    ∃ st, deleteChunksSt noFail b cs idx acc
      = (cs, st, .ok (acc + (cs.map List.length).sum)) := by
  intro cs
  induction cs with
  | nil => intro b idx acc; exact ⟨b, by simp [deleteChunksSt]⟩
  | cons c cs ih =>
    intro b idx acc
    obtain ⟨st, hst⟩ := ih (removeKeys b c) (idx + 1) (acc + c.length)
    refine ⟨st, ?_⟩
    rw [deleteChunksSt, if_neg (by simp [noFail]), hst]
    simp only [List.map_cons, List.sum_cons]
    refine Prod.ext rfl (Prod.ext rfl ?_)
    simp only []
    congr 1
    omega

theorem removeKeys_not_mem (b : Bucket) (ks : List Str) (k : Str) (hk : k ∈ ks) :
    k ∉ (removeKeys b ks).map Prod.fst := by
  intro hmem
  obtain ⟨e, he, hek⟩ := List.mem_map.mp hmem
  have := List.of_mem_filter he
  rw [hek] at this
  exact (of_decide_eq_true this) hk

theorem removeKeys_pres (b : Bucket) (ks : List Str) (k : Str)
    (h : k ∉ b.map Prod.fst) : k ∉ (removeKeys b ks).map Prod.fst := by
  intro hmem
  obtain ⟨e, he, hek⟩ := List.mem_map.mp hmem
  exact h (hek ▸ List.mem_map_of_mem Prod.fst (List.mem_of_mem_filter he))

theorem deleteChunks_failAt :
    ∀ (cs : List (List Str)) (b : Bucket) (idx acc j : Nat),
      idx ≤ j → j - idx < cs.length →
      ∃ st, deleteChunksSt (fun i => decide (i = j)) b cs idx acc
          = (cs.take (j - idx + 1), st, .error ()) ∧
        (∀ k, k ∉ b.map Prod.fst → k ∉ st.map Prod.fst) ∧
        (∀ k ∈ catLists (cs.take (j - idx)), k ∉ st.map Prod.fst) := by
  intro cs
  induction cs with
  | nil => intro b idx acc j hij hlt; simp at hlt
  | cons c cs ih =>
    intro b idx acc j hij hlt
    by_cases heq : idx = j
    · refine ⟨b, ?_, fun k hk => hk, ?_⟩
      · rw [deleteChunksSt, if_pos (decide_eq_true heq)]
        have h0 : j - idx = 0 := by omega
        rw [h0]
        rfl
      · intro k hk
        have h0 : j - idx = 0 := by omega
        rw [h0] at hk
        simp [catLists] at hk
    · have hij2 : idx + 1 ≤ j := by omega
      have hlt2 : j - (idx + 1) < cs.length := by
        simp at hlt; omega
      obtain ⟨st, hst, hpres, hdel⟩ :=
        ih (removeKeys b c) (idx + 1) (acc + c.length) j hij2 hlt2
      refine ⟨st, ?_, ?_, ?_⟩
      · rw [deleteChunksSt,
          if_neg (fun hc => heq (of_decide_eq_true hc)), hst]
        have h1 : j - idx + 1 = (j - (idx + 1) + 1) + 1 := by omega
        rw [h1, List.take_succ_cons]
      · intro k hk
        exact hpres k (removeKeys_pres b c k hk)
      · intro k hk
        have h2 : j - idx = (j - (idx + 1)) + 1 := by omega
        rw [h2, List.take_succ_cons, catLists] at hk
        rcases List.mem_append.mp hk with h | h
        · exact hpres k (removeKeys_not_mem b c k h)
        · exact hdel k h

/- ================= helper lemmas: folder models ================= -/

theorem uploadFolderModel_pos (b0 : Bucket) (base : FPath) (T : LocalTree)
    (pfx : Str) (par : Bool) (uord : List (Str × Content))
    (h0 : (fileManifest base T pfx).length ≠ 0) :
    uploadFolderModel b0 true base T pfx par uord =
      ((if par ∧ 1 < (fileManifest base T pfx).length then uord
          else fileManifest base T pfx).map (fun kv => Call.put kv.1),
        .ok (runPuts b0 (if par ∧ 1 < (fileManifest base T pfx).length then uord
            else fileManifest base T pfx),
          progressGo (fileManifest base T pfx).length 0
            (if par ∧ 1 < (fileManifest base T pfx).length then uord
              else fileManifest base T pfx))) := by
  simp only [uploadFolderModel, if_true]
  rw [if_neg h0]

theorem uploadFolderModel_zero (b0 : Bucket) (base : FPath) (T : LocalTree)
    (pfx : Str) (par : Bool) (uord : List (Str × Content))
    (h0 : (fileManifest base T pfx).length = 0) :
    uploadFolderModel b0 true base T pfx par uord = ([], .ok (b0, [])) := by
  simp only [uploadFolderModel, if_true]
  rw [if_pos h0]

theorem downloadFolderModel_pos (b : Bucket) (pfx : Str) (fuel : Nat) (par : Bool)
    (dord ks : List Str) (hlist : s3list (s3backend b pfx) none fuel = some ks)
    (hne : ks ≠ []) :
    downloadFolderModel b pfx fuel par dord =
      (mapMOpt (dlItem b pfx) (if par ∧ 1 < ks.length then dord else ks)).map
        (fun fs => (false, fs,
          progressGo ks.length 0 (if par ∧ 1 < ks.length then dord else ks))) := by
  rw [downloadFolderModel, hlist]
  have hie : ks.isEmpty = false := by
    cases ks with
    | nil => exact absurd rfl hne
    | cons x t => rfl
  simp only [hie, Bool.false_eq_true, if_false]

theorem downloadFolderModel_zero (b : Bucket) (pfx : Str) (fuel : Nat) (par : Bool)
    (dord : List Str) (hks : bucketKeys b pfx = []) (hfuel : 1 ≤ fuel) :
    downloadFolderModel b pfx fuel par dord = some (true, [], []) := by
  have hlist : s3list (s3backend b pfx) none fuel = some [] := by
    rw [s3backend, hks]
    exact s3list_honest_none [] 1000 fuel (by omega) (by simpa using hfuel)
  rw [downloadFolderModel, hlist]
  rfl

/- ================= the claims ================= -/

/-- C8: upload with a non-existent local path raises FileNotFoundError before
any network call, and upload_folder on a path that is not a directory raises
NotADirectoryError before any network call or manifest construction. -/
theorem C8_localErrors (b : Bucket) (rp : Str) (c : Content) (base : FPath)
    (T : LocalTree) (pfx : Str) (par : Bool) (uord : List (Str × Content)) :
    uploadModel b false rp c = ([], .error .fileNotFound) ∧
    uploadFolderModel b false base T pfx par uord = ([], .error .notADir) :=
  ⟨rfl, rfl⟩

/-- C9: each file the walk discovers is uploaded to the key obtained from the
prefix with its trailing '/' stripped, one '/', and the file's path relative
to the walk root joined with '/'. -/
theorem C9_destKeys (base : FPath) (T : LocalTree) (pfx : Str) :
    fileManifest base T pfx =
      T.map (fun pc => (rstripSlash pfx ++ '/' :: joinPath pc.1, pc.2)) := by
  rw [fileManifest_eq]
  apply List.map_congr_left
  intro pc _
  rw [destKey_eq]

/-- C10: delete with ignore_missing=true suppresses every provider error and
returns successfully; with ignore_missing=false every provider error is
surfaced as a wrapped IOError. -/
theorem C10_deleteIgnore (r : Except Str Unit) (code : Str) :
    deleteModel r true = .ok () ∧
    deleteModel (.error code) false = .error (.ioErr code) := by
  refine ⟨?_, rfl⟩
  cases r with
  | ok u => rfl
  | error c => rfl

/-- C7 (amended): construction fails atomically — a client that has not
passed the head_bucket probe is never returned; missing credentials and a
404 probe failure are wrapped as ValueError, but any other provider error
(e.g. a 403) is re-raised as the raw provider error, not wrapped. -/
theorem C7_init :
    (∀ (bu : Str) (mw : Nat) (probe : ProbeOutcome) (cl : ClientModel),
        initClient bu mw probe = .ok cl → probe = ProbeOutcome.ok) ∧
    (∀ (bu : Str) (mw : Nat),
        initClient bu mw .noCredentials = .error .valueErr) ∧
    (∀ (bu : Str) (mw : Nat),
        initClient bu mw (.clientError code404) = .error .valueErr) ∧
    (∀ (bu : Str) (mw : Nat) (code : Str), code ≠ code404 →
        initClient bu mw (.clientError code) = .error (.rawClientErr code)) := by
  refine ⟨?_, fun bu mw => rfl, fun bu mw => by simp [initClient], ?_⟩
  · intro bu mw probe cl h
    cases probe with
    | ok => rfl
    | noCredentials => simp [initClient] at h
    | clientError code =>
      simp only [initClient] at h
      split at h <;> simp at h
  · intro bu mw code hne
    simp only [initClient]
    rw [if_neg hne]

theorem C7_init_witness :
    initClient ['b'] 5 (.clientError ['4', '0', '3'])
      = .error (.rawClientErr ['4', '0', '3']) :=
  C7_init.2.2.2 ['b'] 5 ['4', '0', '3'] (by decide)

/-- C7 counterexample: a probe failure with code 403 makes construction
raise the raw provider error, not a wrapped ConnectionFailure-kind error. -/
theorem C7_cex :
    initClient ['b'] 5 (.clientError ['4', '0', '3'])
      = .error (.rawClientErr ['4', '0', '3']) ∧
    InitErr.rawClientErr ['4', '0', '3'] ≠ InitErr.valueErr := by
  refine ⟨rfl, by decide⟩

/-- C2 (amended): against a provider that honours the requested page bound,
list with max_keys=None returns all keys, and list with max_keys=k returns
exactly the first k keys, i.e. min(k, N) many; the loop stops once the
accumulated count reaches k.  (If a page over-delivers, the code does not
truncate; see the counterexample.) -/
theorem C2_listing (K : List Str) (cap k fuel1 fuel2 : Nat) (hcap : 1 ≤ cap)
    (hf1 : K.length + 1 ≤ fuel1) (hf2 : min k K.length + 1 ≤ fuel2) :
    s3list (honestProv K cap) none fuel1 = some K ∧
    s3list (honestProv K cap) (some k) fuel2 = some (K.take k) ∧
    (K.take k).length = min k K.length :=
  ⟨s3list_honest_none K cap fuel1 hcap hf1,
    s3list_honest_some K cap k fuel2 hcap hf2,
    by rw [List.length_take]⟩

theorem C2_listing_witness :
    s3list (honestProv [['a'], ['b'], ['c']] 2) none 4 = some [['a'], ['b'], ['c']] ∧
    s3list (honestProv [['a'], ['b'], ['c']] 2) (some 2) 3
      = some (([['a'], ['b'], ['c']] : List Str).take 2) ∧
    (([['a'], ['b'], ['c']] : List Str).take 2).length
      = min 2 ([['a'], ['b'], ['c']] : List Str).length :=
  C2_listing [['a'], ['b'], ['c']] 2 2 4 3 (by decide) (by decide) (by decide)

/-- C2 counterexample: when the provider's only page over-delivers (two keys
against MaxKeys=1), list returns both keys — the result is not truncated to
max_keys. -/
theorem C2_cex :
    s3list overProv (some 1) 2 = some [['a'], ['b']] ∧
    ([['a'], ['b']] : List Str).length ≠ 1 :=
  ⟨rfl, by decide⟩

/-- C6: with an empty manifest the bulk operations are successful no-ops:
upload_folder of a directory with no regular files returns immediately with
no provider call, and download_folder of a prefix with zero keys still
creates the destination directory and returns without error. -/
theorem C6_emptyNoop (b b2 : Bucket) (base : FPath) (T : LocalTree)
    (pfx pfx2 : Str) (par par2 : Bool) (uord : List (Str × Content))
    (dord : List Str) (fuel : Nat)
    (hT : T = []) (hks : bucketKeys b2 pfx2 = []) (hfuel : 1 ≤ fuel) :
    uploadFolderModel b true base T pfx par uord = ([], .ok (b, [])) ∧
    downloadFolderModel b2 pfx2 fuel par2 dord = some (true, [], []) := by
  constructor
  · subst hT
    exact uploadFolderModel_zero b base [] pfx par uord rfl
  · exact downloadFolderModel_zero b2 pfx2 fuel par2 dord hks hfuel

theorem C6_emptyNoop_witness :
    uploadFolderModel [] true [] [] ['x'] true [] = ([], .ok ([], [])) ∧
    downloadFolderModel [] ['x'] 1 true [] = some (true, [], []) :=
  C6_emptyNoop [] [] [] [] ['x'] ['x'] true true [] [] 1 rfl (by decide) (by decide)

theorem deleteFolder_list (b : Bucket) (pfx : Str) (fuel : Nat)
    (hfuel : (bucketKeys b pfx).length + 1 ≤ fuel) :
    s3list (s3backend b pfx) none fuel = some (bucketKeys b pfx) := by
  rw [s3backend]
  exact s3list_honest_none (bucketKeys b pfx) 1000 fuel (by omega) hfuel

theorem bucketKeys_isEmpty_false (b : Bucket) (pfx : Str)
    (h : bucketKeys b pfx ≠ []) : (bucketKeys b pfx).isEmpty = false := by
  cases hbk : bucketKeys b pfx with
  | nil => exact absurd hbk h
  | cons x t => rfl

theorem chunkSum_eq (ks : List Str) :
    ((chunk1000 ks).map List.length).sum = ks.length := by
  rw [← catLists_length, chunk1000, chunkGo_cat ks.length ks (le_refl _)]

theorem keys2500_length : keys2500.length = 2500 := by
  rw [keys2500, List.length_map, List.length_range]

theorem bucketKeys_b2500 : bucketKeys b2500 ['p'] = keys2500 := by
  have hpre : ∀ e ∈ b2500, (['p'] : Str).isPrefixOf e.1 = true := by
    intro e he
    obtain ⟨k, hk, rfl⟩ := List.mem_map.mp he
    obtain ⟨n, _, rfl⟩ := List.mem_map.mp hk
    exact isPrefixOf_append_self ['p'] [Char.ofNat n]
  rw [bucketKeys_all b2500 ['p'] hpre, b2500, List.map_map]
  rw [show (Prod.fst ∘ fun k : Str => (k, ([] : Content))) = id from rfl,
    List.map_id]

/-- C3: delete_folder first lists all keys under the prefix without a cap;
an empty listing returns 0 with no delete call; otherwise the keys are
partitioned in list order into consecutive chunks of at most 1000, one
bulk-delete call is issued per chunk, and the sum of the chunk sizes — the
full key count — is returned; in particular 2,500 keys produce exactly 3
calls of sizes 1000, 1000, 500 and the result 2500. -/
theorem C3_deleteFolder (b : Bucket) (pfx : Str) (fuel : Nat)
    (hfuel : (bucketKeys b pfx).length + 1 ≤ fuel) :
    (bucketKeys b pfx = [] →
      deleteFolderModel b pfx fuel noFail = some ([], b, .ok 0)) ∧
    (bucketKeys b pfx ≠ [] → ∃ st,
      deleteFolderModel b pfx fuel noFail =
        some (chunk1000 (bucketKeys b pfx), st, .ok (bucketKeys b pfx).length)) ∧
    catLists (chunk1000 (bucketKeys b pfx)) = bucketKeys b pfx ∧
    (∀ c ∈ chunk1000 (bucketKeys b pfx), c.length ≤ 1000) ∧
    ((chunk1000 (bucketKeys b pfx)).map List.length
      = chunkSizes (bucketKeys b pfx).length) ∧
    ((chunk1000 keys2500).map List.length = [1000, 1000, 500] ∧
      ∃ st, deleteFolderModel b2500 ['p'] 2501 noFail =
        some (chunk1000 keys2500, st, .ok 2500)) := by
  have hlist := deleteFolder_list b pfx fuel hfuel
  refine ⟨?_, ?_, ?_, ?_, ?_, ?_, ?_⟩
  · intro h
    rw [deleteFolderModel, hlist, h]
    rfl
  · intro h
    obtain ⟨st, hst⟩ := deleteChunks_noFail (chunk1000 (bucketKeys b pfx)) b 0 0
    refine ⟨st, ?_⟩
    rw [deleteFolderModel, hlist]
    simp only [bucketKeys_isEmpty_false b pfx h, Bool.false_eq_true, if_false]
    rw [hst, Nat.zero_add, chunkSum_eq]
  · exact chunkGo_cat (bucketKeys b pfx).length _ (le_refl _)
  · exact fun c hc => chunkGo_bound (bucketKeys b pfx).length _ c hc
  · exact chunkGo_lengths (bucketKeys b pfx).length _ (le_refl _)
  · rw [chunk1000, chunkGo_lengths keys2500.length keys2500 (le_refl _),
      keys2500_length]
    decide
  · have hne : keys2500 ≠ [] := by
      intro h
      have := congrArg List.length h
      rw [keys2500_length] at this
      simp at this
    have hlist2 : s3list (s3backend b2500 ['p']) none 2501 = some keys2500 := by
      rw [s3backend, bucketKeys_b2500]
      exact s3list_honest_none keys2500 1000 2501 (by omega)
        (by rw [keys2500_length])
    obtain ⟨st, hst⟩ := deleteChunks_noFail (chunk1000 keys2500) b2500 0 0
    refine ⟨st, ?_⟩
    rw [deleteFolderModel, hlist2]
    have hie : keys2500.isEmpty = false := by
      cases hbk : keys2500 with
      | nil => exact absurd hbk hne
      | cons x t => rfl
    simp only [hie, Bool.false_eq_true, if_false]
    rw [hst, Nat.zero_add, chunkSum_eq, keys2500_length]

theorem C3_deleteFolder_witness :
    (bucketKeys [(['p'], ([] : Content))] ['p'] = [] →
      deleteFolderModel [(['p'], ([] : Content))] ['p'] 2 noFail
        = some ([], [(['p'], ([] : Content))], .ok 0)) ∧
    (bucketKeys [(['p'], ([] : Content))] ['p'] ≠ [] → ∃ st,
      deleteFolderModel [(['p'], ([] : Content))] ['p'] 2 noFail =
        some (chunk1000 (bucketKeys [(['p'], ([] : Content))] ['p']), st,
          .ok (bucketKeys [(['p'], ([] : Content))] ['p']).length)) ∧
    catLists (chunk1000 (bucketKeys [(['p'], ([] : Content))] ['p']))
      = bucketKeys [(['p'], ([] : Content))] ['p'] ∧
    (∀ c ∈ chunk1000 (bucketKeys [(['p'], ([] : Content))] ['p']),
      c.length ≤ 1000) ∧
    ((chunk1000 (bucketKeys [(['p'], ([] : Content))] ['p'])).map List.length
      = chunkSizes (bucketKeys [(['p'], ([] : Content))] ['p']).length) ∧
    ((chunk1000 keys2500).map List.length = [1000, 1000, 500] ∧
      ∃ st, deleteFolderModel b2500 ['p'] 2501 noFail =
        some (chunk1000 keys2500, st, .ok 2500)) :=
  C3_deleteFolder [(['p'], ([] : Content))] ['p'] 2 (by decide)

/-- C4: when the bulk-delete call for chunk j fails, delete_folder aborts at
that chunk and surfaces the failure: exactly the first j+1 chunks were
issued, no later chunk's call is issued, and the keys deleted by the earlier
j chunks stay deleted in the resulting store. -/
theorem C4_partialBatch (b : Bucket) (pfx : Str) (fuel j : Nat)
    (hne : bucketKeys b pfx ≠ [])
    (hfuel : (bucketKeys b pfx).length + 1 ≤ fuel)
    (hj : j < (chunk1000 (bucketKeys b pfx)).length) :
    ∃ st,
      deleteFolderModel b pfx fuel (fun i => decide (i = j)) =
        some ((chunk1000 (bucketKeys b pfx)).take (j + 1), st, .error ()) ∧
      ∀ k ∈ catLists ((chunk1000 (bucketKeys b pfx)).take j),
        k ∉ st.map Prod.fst := by
  obtain ⟨st, hst, hpres, hdel⟩ :=
    deleteChunks_failAt (chunk1000 (bucketKeys b pfx)) b 0 0 j (Nat.zero_le _)
      (by simpa using hj)
  refine ⟨st, ?_, ?_⟩
  · rw [deleteFolderModel, deleteFolder_list b pfx fuel hfuel]
    simp only [bucketKeys_isEmpty_false b pfx hne, Bool.false_eq_true, if_false]
    rw [hst]
    simp
  · intro k hk
    exact hdel k (by simpa using hk)

theorem C4_partialBatch_witness :
    ∃ st,
      deleteFolderModel [(['q'], ([] : Content))] ['q'] 2 (fun i => decide (i = 0)) =
        some ((chunk1000 (bucketKeys [(['q'], ([] : Content))] ['q'])).take 1,
          st, .error ()) ∧
      ∀ k ∈ catLists ((chunk1000 (bucketKeys [(['q'], ([] : Content))] ['q'])).take 0),
        k ∉ st.map Prod.fst :=
  C4_partialBatch [(['q'], ([] : Content))] ['q'] 2 0 (by decide) (by decide) (by decide)

/-- C5: for a manifest of n items that all succeed, upload_folder and
download_folder invoke the progress callback exactly n times, each call
passing (completed, total) with total fixed at n, completed running
1, 2, ..., n in increasing order with final call (n, n) — in sequential and
in parallel mode. -/
theorem C5_progress (b0 b : Bucket) (base : FPath) (T : LocalTree)
    (pfx pfx2 : Str) (parU parD : Bool) (uord : List (Str × Content))
    (dord : List Str) (fuel : Nat)
    (hu : uord.Perm (fileManifest base T pfx))
    (hd : dord.Perm (bucketKeys b pfx2))
    (hfuel : (bucketKeys b pfx2).length + 1 ≤ fuel) :
    (∃ cs b2, uploadFolderModel b0 true base T pfx parU uord =
        (cs, .ok (b2, (List.range (fileManifest base T pfx).length).map
          (fun i => (i + 1, (fileManifest base T pfx).length))))) ∧
    (∃ fl fs, downloadFolderModel b pfx2 fuel parD dord =
        some (fl, fs, (List.range (bucketKeys b pfx2).length).map
          (fun i => (i + 1, (bucketKeys b pfx2).length)))) := by
  constructor
  · by_cases h0 : (fileManifest base T pfx).length = 0
    · refine ⟨[], b0, ?_⟩
      rw [uploadFolderModel_zero b0 base T pfx parU uord h0, h0]
      rfl
    · set items := if parU ∧ 1 < (fileManifest base T pfx).length then uord
        else fileManifest base T pfx with hitems
      have hil : items.length = (fileManifest base T pfx).length := by
        rw [hitems]
        split
        · exact hu.length_eq
        · rfl
      refine ⟨items.map (fun kv => Call.put kv.1), runPuts b0 items, ?_⟩
      rw [uploadFolderModel_pos b0 base T pfx parU uord h0]
      have htr : progressGo (fileManifest base T pfx).length 0 items
          = (List.range (fileManifest base T pfx).length).map
            (fun i => (i + 1, (fileManifest base T pfx).length)) := by
        rw [progressGo_eq, hil]
        apply List.map_congr_left
        intro i _
        rw [Nat.zero_add]
      rw [← hitems, htr]
  · by_cases h0 : bucketKeys b pfx2 = []
    · refine ⟨true, [], ?_⟩
      rw [downloadFolderModel_zero b pfx2 fuel parD dord h0 (by omega), h0]
      rfl
    · have hlist := deleteFolder_list b pfx2 fuel hfuel
      set ks := bucketKeys b pfx2 with hks
      set order := if parD ∧ 1 < ks.length then dord else ks with horder
      have hol : order.length = ks.length := by
        rw [horder]
        split
        · exact hd.length_eq
        · rfl
      have hmem : ∀ k ∈ order, k ∈ ks := by
        intro k hk
        rw [horder] at hk
        rcases (by assumption : k ∈ if parD ∧ 1 < ks.length then dord else ks) with hk2
        by_cases hpp : parD ∧ 1 < ks.length
        · rw [if_pos hpp] at hk2
          exact hd.mem_iff.mp hk2
        · rw [if_neg hpp] at hk2
          exact hk2
      have hsucc : ∀ k ∈ order, dlItem b pfx2 k =
          some (lstripSlash (k.drop pfx2.length), (getObject b k).getD []) := by
        intro k hk
        obtain ⟨c, hc⟩ := getObject_exists b k (bucketKeys_sub b pfx2 k (hmem k hk))
        rw [dlItem, hc]
        rfl
      have hmap := mapMOpt_eq_map (dlItem b pfx2)
        (fun k => (lstripSlash (k.drop pfx2.length), (getObject b k).getD []))
        order hsucc
      refine ⟨false, order.map
        (fun k => (lstripSlash (k.drop pfx2.length), (getObject b k).getD [])), ?_⟩
      rw [downloadFolderModel_pos b pfx2 fuel parD dord ks hlist h0, ← horder, hmap]
      have htr : progressGo ks.length 0 order
          = (List.range ks.length).map (fun i => (i + 1, ks.length)) := by
        rw [progressGo_eq, hol]
        apply List.map_congr_left
        intro i _
        rw [Nat.zero_add]
      rw [htr]
      rfl

theorem C5_progress_witness :
    (∃ cs b2, uploadFolderModel [] true [] [([['a']], [0]), ([['b']], [1])] ['x'] true
        (fileManifest [] [([['a']], [0]), ([['b']], [1])] ['x']) =
        (cs, .ok (b2, (List.range
            (fileManifest [] [([['a']], [0]), ([['b']], [1])] ['x']).length).map
          (fun i => (i + 1,
            (fileManifest [] [([['a']], [0]), ([['b']], [1])] ['x']).length))))) ∧
    (∃ fl fs, downloadFolderModel [(['x', '/', 'a'], [0]), (['x', '/', 'b'], [1])]
        ['x'] 3 true
        (bucketKeys [(['x', '/', 'a'], [0]), (['x', '/', 'b'], [1])] ['x']) =
        some (fl, fs, (List.range
            (bucketKeys [(['x', '/', 'a'], [0]), (['x', '/', 'b'], [1])] ['x']).length).map
          (fun i => (i + 1,
            (bucketKeys [(['x', '/', 'a'], [0]), (['x', '/', 'b'], [1])] ['x']).length)))) :=
  C5_progress [] [(['x', '/', 'a'], [0]), (['x', '/', 'b'], [1])] []
    [([['a']], [0]), ([['b']], [1])] ['x'] ['x'] true true
    (fileManifest [] [([['a']], [0]), ([['b']], [1])] ['x'])
    (bucketKeys [(['x', '/', 'a'], [0]), (['x', '/', 'b'], [1])] ['x']) 3
    (List.Perm.refl _) (List.Perm.refl _) (by decide)

theorem roundtrip_core (base : FPath) (T : LocalTree) (pfx : Str)
    (items : List (Str × Content)) (order : List Str) (fuel : Nat)
    (hpfx : trailingSlashes pfx ≤ 1)
    (hvalid : ∀ pc ∈ T, validPath pc.1)
    (hnd : (T.map Prod.fst).Nodup)
    (hitems : items.Perm (fileManifest base T pfx))
    (horder : order.Perm (items.map Prod.fst))
    (hfuel : items.length + 1 ≤ fuel) :
    runPuts [] items = items ∧
    s3list (s3backend items pfx) none fuel = some (items.map Prod.fst) ∧
    mapMOpt (dlItem items pfx) order
      = some (order.map (fun k =>
          (lstripSlash (k.drop pfx.length), (getObject items k).getD []))) ∧
    (order.map (fun k =>
        (lstripSlash (k.drop pfx.length), (getObject items k).getD []))).Perm
      (T.map (fun pc => (joinPath pc.1, pc.2))) := by
  have hman := fileManifest_eq base T pfx
  have hmk : ((fileManifest base T pfx).map Prod.fst).Nodup := by
    rw [hman, List.map_map]
    rw [show (Prod.fst ∘ fun pc : FPath × Content => (destKey pfx pc.1, pc.2))
        = (destKey pfx ∘ Prod.fst) from rfl, ← List.map_map]
    refine List.Nodup.map_on ?_ hnd
    intro x hx y hy hxy
    obtain ⟨px, hpx, rfl⟩ := List.mem_map.mp hx
    obtain ⟨py, hpy, rfl⟩ := List.mem_map.mp hy
    exact destKey_inj pfx _ _ (hvalid px hpx) (hvalid py hpy) hxy
  have huik : (items.map Prod.fst).Nodup := ((hitems.map Prod.fst).nodup_iff).mpr hmk
  have hput : runPuts [] items = items := by
    have h := runPuts_fresh items [] (by intro k hk; simp) huik
    simpa using h
  have hall : ∀ e ∈ items, pfx.isPrefixOf e.1 = true := by
    intro e he
    have hem : e ∈ fileManifest base T pfx := hitems.mem_iff.mp he
    rw [hman] at hem
    obtain ⟨pc, hpc, rfl⟩ := List.mem_map.mp hem
    exact destKey_isPrefix pfx pc.1 hpfx
  have hbk : bucketKeys items pfx = items.map Prod.fst :=
    bucketKeys_all items pfx hall
  have hlist : s3list (s3backend items pfx) none fuel
      = some (items.map Prod.fst) := by
    rw [s3backend, hbk]
    exact s3list_honest_none _ 1000 fuel (by omega)
      (by rw [List.length_map]; exact hfuel)
  have hsucc : ∀ k ∈ order, dlItem items pfx k
      = some (lstripSlash (k.drop pfx.length), (getObject items k).getD []) := by
    intro k hk
    have hkks : k ∈ items.map Prod.fst := horder.mem_iff.mp hk
    obtain ⟨c, hc⟩ := getObject_exists items k hkks
    rw [dlItem, hc]
    rfl
  have hmap := mapMOpt_eq_map (dlItem items pfx)
    (fun k => (lstripSlash (k.drop pfx.length), (getObject items k).getD []))
    order hsucc
  refine ⟨hput, hlist, hmap, ?_⟩
  have hstep3 : (fileManifest base T pfx).map
      (fun kv : Str × Content =>
        (lstripSlash (kv.1.drop pfx.length), (getObject items kv.1).getD []))
      = T.map (fun pc => (joinPath pc.1, pc.2)) := by
    rw [hman, List.map_map]
    apply List.map_congr_left
    intro pc hpc
    have hmem : (destKey pfx pc.1, pc.2) ∈ items := by
      apply hitems.mem_iff.mpr
      rw [hman]
      exact List.mem_map.mpr ⟨pc, hpc, rfl⟩
    have hgo : getObject items (destKey pfx pc.1) = some pc.2 :=
      getObject_of_mem items _ pc.2 hmem huik
    show (lstripSlash ((destKey pfx pc.1).drop pfx.length),
        (getObject items (destKey pfx pc.1)).getD []) = (joinPath pc.1, pc.2)
    rw [hgo, destKey_drop pfx pc.1 hpfx (hvalid pc hpc)]
    rfl
  refine List.Perm.trans (horder.map _) ?_
  rw [List.map_map,
    show ((fun k : Str => (lstripSlash (k.drop pfx.length), (getObject items k).getD []))
        ∘ Prod.fst) = (fun kv : Str × Content =>
        (lstripSlash (kv.1.drop pfx.length), (getObject items kv.1).getD [])) from rfl]
  refine List.Perm.trans (hitems.map _) ?_
  rw [hstep3]

/-- C1 (amended): for a local tree with valid, pairwise-distinct relative
paths and a prefix with at most one trailing '/', upload_folder into an
empty store followed by download_folder of the same prefix reproduces
exactly the tree's files with identical bytes, whatever the parallel flag
(and hence completion order) of either call.  (A prefix with two or more
trailing slashes breaks the roundtrip; see the counterexample.) -/
theorem C1_roundtrip (base : FPath) (T : LocalTree) (pfx : Str)
    (parU parD : Bool) (uord : List (Str × Content)) (dord : List Str) (fuel : Nat)
    (hpfx : trailingSlashes pfx ≤ 1)
    (hvalid : ∀ pc ∈ T, validPath pc.1)
    (hnd : (T.map Prod.fst).Nodup)
    (hu : uord.Perm (fileManifest base T pfx))
    (hd : dord.Perm (uord.map Prod.fst))
    (hfuel : uord.length + 1 ≤ fuel) :
    ∃ cs b2 tr fl fs dtr,
      uploadFolderModel [] true base T pfx parU uord = (cs, .ok (b2, tr)) ∧
      downloadFolderModel b2 pfx fuel parD dord = some (fl, fs, dtr) ∧
      fs.Perm (T.map (fun pc => (joinPath pc.1, pc.2))) := by
  by_cases h0 : (fileManifest base T pfx).length = 0
  · have hT : T = [] := by
      have h := h0
      rw [fileManifest_eq, List.length_map] at h
      exact List.length_eq_zero.mp h
    refine ⟨[], [], [], true, [], [], ?_, ?_, ?_⟩
    · exact uploadFolderModel_zero [] base T pfx parU uord h0
    · exact downloadFolderModel_zero [] pfx fuel parD dord rfl (by omega)
    · rw [hT]
      exact List.Perm.nil
  · set items := if parU ∧ 1 < (fileManifest base T pfx).length then uord
      else fileManifest base T pfx with hI
    set order := if parD ∧ 1 < (items.map Prod.fst).length then dord
      else items.map Prod.fst with hO
    have hip : items.Perm (fileManifest base T pfx) := by
      rw [hI]
      split
      · exact hu
      · exact List.Perm.refl _
    have hop : order.Perm (items.map Prod.fst) := by
      rw [hO]
      split
      · exact hd.trans ((hu.map Prod.fst).trans (hip.map Prod.fst).symm)
      · exact List.Perm.refl _
    have hne : items.map Prod.fst ≠ [] := by
      intro h
      have hl := congrArg List.length h
      rw [List.length_map, hip.length_eq] at hl
      exact h0 (by simpa using hl)
    obtain ⟨hput, hlist, hmap, hperm⟩ := roundtrip_core base T pfx items order fuel
      hpfx hvalid hnd hip hop
      (by rw [hip.length_eq, ← hu.length_eq]; exact hfuel)
    refine ⟨items.map (fun kv => Call.put kv.1), runPuts [] items,
      progressGo (fileManifest base T pfx).length 0 items, false,
      order.map (fun k =>
        (lstripSlash (k.drop pfx.length), (getObject items k).getD [])),
      progressGo (items.map Prod.fst).length 0 order, ?_, ?_, hperm⟩
    · rw [uploadFolderModel_pos [] base T pfx parU uord h0, ← hI]
    · rw [hput, downloadFolderModel_pos items pfx fuel parD dord
        (items.map Prod.fst) hlist hne, ← hO, hmap]
      rfl

theorem C1_roundtrip_witness :
    ∃ cs b2 tr fl fs dtr,
      uploadFolderModel [] true [] [([['f']], [7])] ['b'] false
          (fileManifest [] [([['f']], [7])] ['b']) = (cs, .ok (b2, tr)) ∧
      downloadFolderModel b2 ['b'] 2 false
          ((fileManifest [] [([['f']], [7])] ['b']).map Prod.fst)
        = some (fl, fs, dtr) ∧
      fs.Perm (([([['f']], [7])] : LocalTree).map (fun pc => (joinPath pc.1, pc.2))) :=
  C1_roundtrip [] [([['f']], [7])] ['b'] false false
    (fileManifest [] [([['f']], [7])] ['b'])
    ((fileManifest [] [([['f']], [7])] ['b']).map Prod.fst) 2
    (by decide) (by decide) (by decide)
    (List.Perm.refl _) (List.Perm.refl _) (by decide)

/-- C1 counterexample: with the prefix "a//" (two trailing slashes) the
uploaded key is "a/f", the subsequent listing of "a//" matches nothing, and
download_folder reproduces an empty tree instead of the uploaded file. -/
theorem C1_cex :
    uploadFolderModel [] true [] [([['f']], [1])] ['a', '/', '/'] false [] =
      ([Call.put ['a', '/', 'f']], .ok ([(['a', '/', 'f'], [1])], [(1, 1)])) ∧
    downloadFolderModel [(['a', '/', 'f'], [1])] ['a', '/', '/'] 2 false []
      = some (true, [], []) ∧
    ¬ (([] : List (Str × Content)).Perm
        (([([['f']], [1])] : LocalTree).map (fun pc => (joinPath pc.1, pc.2)))) := by
  refine ⟨rfl, rfl, ?_⟩
  intro h
  simpa using h.length_eq
